import Mathlib

/-!
Shallow embedding of `src/log_to_loki/loki_handler.py` (class `LokiHandler`):
the ingestion path (`emit`), the call-site resolver (`_get_real_caller`),
the batch worker loop (`_batch_worker`), and the grouping / delivery step
(`_send_batch`).  Python dicts are modelled as insertion-ordered association
lists over `String`; Python `time.time()` values and ints are modelled as
`Int`; fallible steps are modelled with `Except`.
-/

/-! ### String helpers (modelling the Python string operations used) -/

/-- `str.lower()` restricted to ASCII, which is all the code ever lowercases
(level names such as `"INFO"`). -/
def strLower (s : String) : String :=
  ⟨s.data.map (fun c => if 'A' ≤ c ∧ c ≤ 'Z' then Char.ofNat (c.toNat + 32) else c)⟩

/-- `str.endswith(suf)`. -/
def strEndsWith (s suf : String) : Bool :=
  List.isSuffixOf suf.data s.data

/-- Prefix test on character lists. -/
def listIsPrefix : List Char → List Char → Bool
  | [], _ => true
  | _ :: _, [] => false
  | a :: as, b :: bs => decide (a = b) && listIsPrefix as bs

/-- Substring test on character lists. -/
def listContainsSub (needle : List Char) : List Char → Bool
  | [] => needle.isEmpty
  | c :: rest => listIsPrefix needle (c :: rest) || listContainsSub needle rest

/-- Python's `needle in hay` on strings. -/
def strContains (hay needle : String) : Bool :=
  listContainsSub needle.data hay.data

/-- `str.split(c)` for a single-character separator. -/
def splitChar (c : Char) : List Char → List (List Char)
  | [] => [[]]
  | a :: rest =>
    match splitChar c rest with
    | [] => [[a]]
    | h :: t => if a = c then [] :: h :: t else (a :: h) :: t

/-- `filename.split('/')[-1].split('\\')[-1]` — the file's base name. -/
def basename (s : String) : String :=
  ⟨((splitChar '\\' ((splitChar '/' s.data).getLastD [])).getLastD [])⟩

/-- `module_name[:-3]` applied when the name ends in `".py"`. -/
def dropDotPy (s : String) : String :=
  if strEndsWith s ".py" then ⟨s.data.take (s.data.length - 3)⟩ else s

/-! ### Data model -/

/-- The `log_entry` dict built in `LokiHandler.emit` (its `timestamp`,
`message`, `level`, `logger` keys plus the spread of `caller_info`). -/
structure LogEntry where
  timestamp : String
  message : String
  level : String
  logger : String
  function : String
  line : Int
  file : String
deriving DecidableEq, Repr

/-- The dict returned by `_get_real_caller`. -/
structure CallerInfo where
  function : String
  line : Int
  file : String
deriving DecidableEq, Repr

/-! ### Python dict as an insertion-ordered association list -/

/-- Dict lookup `d[k]` / `d.get(k)`. -/
def alookup {α : Type} (k : String) : List (String × α) → Option α
  | [] => none
  | (k', v) :: rest => if k' = k then some v else alookup k rest

/-- Dict update `d[k] = v`: replaces in place (keeping the key's original
position) or appends a fresh key, exactly like a Python dict. -/
def dinsert (k v : String) : List (String × String) → List (String × String)
  | [] => [(k, v)]
  | (k', v') :: rest =>
    if k' = k then (k', v) :: rest else (k', v') :: dinsert k v rest

/-! ### Canonical label key (`labels_key` in `_send_batch`) -/

/-- Strict lexicographic comparison of character lists by code point:
Python's `<` on strings. -/
def charListLt : List Char → List Char → Bool
  | [], [] => false
  | [], _ :: _ => true
  | _ :: _, [] => false
  | a :: as, b :: bs =>
    decide (a.toNat < b.toNat) || (decide (a.toNat = b.toNat) && charListLt as bs)

theorem charListLt_irrefl : ∀ a, charListLt a a = false := by
  intro a
  induction a with
  | nil => rfl
  | cons c cs ih => simp [charListLt, ih]

theorem charListLt_asymm :
    ∀ a b : List Char, charListLt a b = true → charListLt b a = false := by
  intro a
  induction a with
  | nil =>
    intro b h
    cases b with
    | nil => simp [charListLt] at h
    | cons d ds => rfl
  | cons c cs ih =>
    intro b h
    cases b with
    | nil => simp [charListLt] at h
    | cons d ds =>
      simp only [charListLt, Bool.or_eq_true, Bool.and_eq_true,
        decide_eq_true_eq] at h
      simp only [charListLt, Bool.or_eq_false_iff, Bool.and_eq_false_iff,
        decide_eq_false_iff_not]
      rcases h with h | ⟨he, hr⟩
      · exact ⟨by omega, Or.inl (by omega)⟩
      · exact ⟨by omega, Or.inr (by simpa using ih ds hr)⟩

theorem charListLt_trans :
    ∀ a b c : List Char,
      charListLt a b = true → charListLt b c = true → charListLt a c = true := by
  intro a
  induction a with
  | nil =>
    intro b c hab hbc
    cases b with
    | nil => simp [charListLt] at hab
    | cons d ds =>
      cases c with
      | nil => simp [charListLt] at hbc
      | cons e es => simp [charListLt]
  | cons x xs ih =>
    intro b c hab hbc
    cases b with
    | nil => simp [charListLt] at hab
    | cons d ds =>
      cases c with
      | nil => simp [charListLt] at hbc
      | cons e es =>
        simp only [charListLt, Bool.or_eq_true, Bool.and_eq_true,
          decide_eq_true_eq] at hab hbc ⊢
        rcases hab with h1 | ⟨h1, r1⟩
        · rcases hbc with h2 | ⟨h2, _⟩
          · exact Or.inl (by omega)
          · exact Or.inl (by omega)
        · rcases hbc with h2 | ⟨h2, r2⟩
          · exact Or.inl (by omega)
          · exact Or.inr ⟨by omega, ih ds es r1 r2⟩

theorem charListLt_conn :
    ∀ a b : List Char,
      charListLt a b = false → charListLt b a = false → a = b := by
  intro a
  induction a with
  | nil =>
    intro b hab _
    cases b with
    | nil => rfl
    | cons d ds => simp [charListLt] at hab
  | cons x xs ih =>
    intro b hab hba
    cases b with
    | nil => simp [charListLt] at hba
    | cons d ds =>
      simp only [charListLt, Bool.or_eq_false_iff, Bool.and_eq_false_iff,
        decide_eq_false_iff_not] at hab hba
      rcases hab with ⟨h1, h2⟩
      rcases hba with ⟨h3, h4⟩
      have h5 : x.toNat = d.toNat := by omega
      have hx : x = d := Char.ext (UInt32.ext h5)
      subst hx
      rcases h2 with h2 | h2
      · omega
      · rcases h4 with h4 | h4
        · omega
        · rw [ih ds (by simpa using h2) (by simpa using h4)]

/-- Python's `<` on strings (code-point lexicographic). -/
def strLt (s t : String) : Prop :=
  charListLt s.data t.data = true

/-- The order Python's `sorted(labels.items())` uses: lexicographic on the
`(key, value)` pair (keys compared first, values break ties). -/
def pairLe (a b : String × String) : Prop :=
  strLt a.1 b.1 ∨ (a.1 = b.1 ∧ (strLt a.2 b.2 ∨ a.2 = b.2))

instance : DecidableRel pairLe := fun a b => by
  unfold pairLe strLt; exact inferInstance

theorem string_eq_of_data_eq {s t : String} (h : s.data = t.data) : s = t :=
  congrArg String.mk h

theorem strLt_or (s t : String) :
    strLt s t ∨ strLt t s ∨ s = t := by
  unfold strLt
  cases h1 : charListLt s.data t.data
  · cases h2 : charListLt t.data s.data
    · exact Or.inr (Or.inr (string_eq_of_data_eq (charListLt_conn _ _ h1 h2)))
    · exact Or.inr (Or.inl rfl)
  · exact Or.inl rfl

instance : IsTotal (String × String) pairLe := by
  constructor
  intro a b
  rcases strLt_or a.1 b.1 with h | h | h
  · exact Or.inl (Or.inl h)
  · exact Or.inr (Or.inl h)
  · rcases strLt_or a.2 b.2 with h2 | h2 | h2
    · exact Or.inl (Or.inr ⟨h, Or.inl h2⟩)
    · exact Or.inr (Or.inr ⟨h.symm, Or.inl h2⟩)
    · exact Or.inl (Or.inr ⟨h, Or.inr h2⟩)

theorem strLt_trans {a b c : String} (h1 : strLt a b) (h2 : strLt b c) :
    strLt a c :=
  charListLt_trans _ _ _ h1 h2

theorem strLt_irrefl (a : String) : ¬ strLt a a := by
  unfold strLt
  simp [charListLt_irrefl]

theorem strLt_asymm {a b : String} (h : strLt a b) : ¬ strLt b a := by
  unfold strLt at *
  simp [charListLt_asymm _ _ h]

instance : IsTrans (String × String) pairLe := by
  constructor
  intro a b c hab hbc
  rcases hab with h1 | ⟨h1, v1⟩
  · rcases hbc with h2 | ⟨h2, _⟩
    · exact Or.inl (strLt_trans h1 h2)
    · exact Or.inl (h2 ▸ h1)
  · rcases hbc with h2 | ⟨h2, v2⟩
    · exact Or.inl (h1 ▸ h2)
    · refine Or.inr ⟨h1.trans h2, ?_⟩
      rcases v1 with v1 | v1
      · rcases v2 with v2 | v2
        · exact Or.inl (strLt_trans v1 v2)
        · exact Or.inl (v2 ▸ v1)
      · rcases v2 with v2 | v2
        · exact Or.inl (v1 ▸ v2)
        · exact Or.inr (v1.trans v2)

instance : IsAntisymm (String × String) pairLe := by
  constructor
  intro a b hab hba
  rcases hab with h1 | ⟨h1, v1⟩
  · rcases hba with h2 | ⟨h2, _⟩
    · exact absurd h2 (strLt_asymm h1)
    · exact absurd h1 (h2 ▸ strLt_irrefl _)
  · rcases hba with h2 | ⟨h2, v2⟩
    · exact absurd h2 (h1 ▸ strLt_irrefl _)
    · refine Prod.ext_iff.2 ⟨h1, ?_⟩
      rcases v1 with v1 | v1
      · rcases v2 with v2 | v2
        · exact absurd v2 (strLt_asymm v1)
        · exact v2.symm
      · exact v1

/-- `sorted(labels.items())`. -/
def sortedItems (d : List (String × String)) : List (String × String) :=
  List.insertionSort pairLe d

/-- `'|'.join([f'{k}={v}' for k, v in sorted(labels.items())])`. -/
def labelsKey (d : List (String × String)) : String :=
  String.intercalate "|" ((sortedItems d).map (fun p => p.1 ++ "=" ++ p.2))

/-! ### Label construction in `_send_batch` -/

/-- `base_labels = {'job': 'python-app', 'level': 'info', **self.labels}`;
`custom` is `self.labels` in its iteration order. -/
def baseLabels (custom : List (String × String)) : List (String × String) :=
  custom.foldl (fun d kv => dinsert kv.1 kv.2 d)
    [("job", "python-app"), ("level", "info")]

/-- `labels = {**base_labels, 'level': entry['level'].lower(),
'function': entry['function'], 'file': entry['file']}`. -/
def entryLabels (base : List (String × String)) (e : LogEntry) :
    List (String × String) :=
  dinsert "file" e.file
    (dinsert "function" e.function
      (dinsert "level" (strLower e.level) base))

/-- The grouping key `labels_key` computed for one entry. -/
def entryKey (base : List (String × String)) (e : LogEntry) : String :=
  labelsKey (entryLabels base e)

/-- The `[entry['timestamp'], entry['message']]` pair appended to a
stream's `values`. -/
def entryValue (e : LogEntry) : String × String :=
  (e.timestamp, e.message)

/-! ### Stream accumulation (the `streams` dict in `_send_batch`) -/

/-- One value of the `streams` dict: `{'labels': ..., 'values': ...}`. -/
structure StreamData where
  labels : List (String × String)
  values : List (String × String)
deriving DecidableEq, Repr

/-- `streams[labels_key]['values'].append(...)`: append a value to the
stream stored under `key`, leaving everything else (labels included)
unchanged. -/
def appendValue (key : String) (v : String × String) :
    List (String × StreamData) → List (String × StreamData)
  | [] => []
  | (k, s) :: rest =>
    if k = key then (k, ⟨s.labels, s.values ++ [v]⟩) :: rest
    else (k, s) :: appendValue key v rest

/-- One iteration of the `for entry in batch` loop in `_send_batch`:
compute the entry's labels and key, create the stream on first sight
(storing this entry's labels), then append the value. -/
def addEntry (base : List (String × String))
    (streams : List (String × StreamData)) (e : LogEntry) :
    List (String × StreamData) :=
  match alookup (entryKey base e) streams with
  | some _ => appendValue (entryKey base e) (entryValue e) streams
  | none =>
    streams ++ [(entryKey base e, ⟨entryLabels base e, [entryValue e]⟩)]

/-- The whole grouping loop of `_send_batch`, producing the `streams` dict
in insertion order. -/
def groupStreams (custom : List (String × String)) (batch : List LogEntry) :
    List (String × StreamData) :=
  batch.foldl (addEntry (baseLabels custom)) []

/-- One element of `loki_streams`: `{'stream': labels, 'values': values}`. -/
structure LokiStream where
  stream : List (String × String)
  values : List (String × String)
deriving DecidableEq, Repr

/-- The `payload = {'streams': loki_streams}` built by `_send_batch`. -/
structure Payload where
  streams : List LokiStream
deriving DecidableEq, Repr

/-- `loki_streams` assembly: one wire stream per `streams` dict entry, in
dict (= first-encounter) order. -/
def buildPayload (custom : List (String × String)) (batch : List LogEntry) :
    Payload :=
  ⟨(groupStreams custom batch).map (fun p => ⟨p.2.labels, p.2.values⟩)⟩

example :
    labelsKey [("b", "2"), ("a", "1")] = "a=1|b=2" := by decide

example :
    strLower "INFO" = "info" := by decide

example :
    basename "/usr/lib/python3/logging/__init__.py" = "__init__.py" := by decide

/-! ### Call-site resolution (`_get_real_caller`) -/

/-- One stack frame as seen by the resolver: `f_code.co_filename`,
`f_code.co_name`, `f_lineno`. -/
structure FrameInfo where
  filename : String
  funcName : String
  lineno : Int
deriving DecidableEq, Repr

/-- The function names skipped by `_get_real_caller`. -/
def skippedNames : List String :=
  ["_log", "info", "debug", "warning", "error", "critical", "emit",
   "_get_real_caller", "format", "_batch_worker", "_send_batch"]

/-- Negation of the acceptance test in `_get_real_caller`'s loop. -/
def skippedFrame (f : FrameInfo) : Bool :=
  strEndsWith f.filename "logging/__init__.py" ||
  strEndsWith f.filename "logging\\__init__.py" ||
  skippedNames.contains f.funcName ||
  strContains (strLower f.filename) "logging" ||
  strContains f.filename "LokiHandler" ||
  strContains f.filename "LokiLogger"

/-- The dict returned for an accepted frame, with the `<module>` rewrite. -/
def resolveFrame (f : FrameInfo) : CallerInfo :=
  if f.funcName = "<module>" then
    ⟨dropDotPy (basename f.filename) ++ "_module", f.lineno, basename f.filename⟩
  else
    ⟨f.funcName, f.lineno, basename f.filename⟩

/-- `_get_real_caller`, walking the `f_back` chain (the list of frames
above the handler): first non-skipped frame wins; an exhausted stack
yields the sentinel dict. -/
def getRealCaller : List FrameInfo → CallerInfo
  | [] => ⟨"unknown", 0, "unknown"⟩
  | f :: rest => if skippedFrame f then getRealCaller rest else resolveFrame f

/-! ### `emit` (ingestion path) -/

/-- One call of `LokiHandler.emit`: the surrounding call stack, the
record's fields, and the outcomes of the two steps that can raise
(`self.format(record)` and `self.log_queue.put(...)`). -/
structure EmitAttempt where
  frames : List FrameInfo
  levelname : String
  loggerName : String
  timeNs : Int
  formatResult : Except String String
  enqueueResult : Except String Unit

/-- The body of `emit`'s `try` block: resolve the caller, format, prefix
with `[function:line]` (`caller_info` is always a truthy 3-key dict, so
the prefix is always applied), build the `log_entry`, enqueue it. -/
def emitBody (a : EmitAttempt) : Except String LogEntry :=
  let caller := getRealCaller a.frames
  match a.formatResult with
  | .error e => .error e
  | .ok fm =>
    let msg := "[" ++ caller.function ++ ":" ++ toString caller.line ++ "] " ++ fm
    match a.enqueueResult with
    | .error e => .error e
    | .ok _ =>
      .ok ⟨toString a.timeNs, msg, a.levelname, a.loggerName,
           caller.function, caller.line, caller.file⟩

/-- What an `emit` call leaves behind. -/
inductive EmitOutcome where
  | enqueued (e : LogEntry)
  | errorHandled
deriving DecidableEq, Repr

/-- `emit` with its catch-all `except Exception: self.handleError(record)`:
the outer `Except` layer is what would propagate to the application call
site, and the handler always returns `.ok`. -/
def emit (a : EmitAttempt) : Except String EmitOutcome :=
  .ok (match emitBody a with
       | .ok e => .enqueued e
       | .error _ => .errorHandled)

/-! ### Delivery classification (`_send_batch`'s HTTP tail) -/

/-- The response of `self.session.post`. -/
structure HttpResponse where
  status : Int
  text : String
deriving DecidableEq, Repr

/-- The transport outcome of one send: a response, or a raised transport
exception (`.error`). -/
def sendSuccess (r : Except String HttpResponse) : Bool :=
  match r with
  | .ok resp => decide (resp.status = 200 ∨ resp.status = 204)
  | .error _ => false

/-- The stderr lines `_send_batch` prints for one send attempt: nothing on
success, one diagnostic line otherwise; nothing is raised or returned. -/
def sendStderr (r : Except String HttpResponse) : List String :=
  match r with
  | .ok resp =>
    if resp.status = 200 ∨ resp.status = 204 then []
    else ["Ошибка отправки в Loki: " ++ toString resp.status ++ " - " ++ resp.text]
  | .error e => ["Ошибка отправки батча в Loki: " ++ e]

/-! ### The batch worker (`_batch_worker`) -/

/-- The configuration the worker reads: `self.batch_size`,
`self.flush_interval`. -/
structure WorkerCfg where
  batchSize : Int
  flushInterval : Int
deriving DecidableEq, Repr

/-- The worker's loop-local state: `batch` and `last_flush`. -/
structure WorkerState where
  batch : List LogEntry
  lastFlush : Int
deriving DecidableEq, Repr

/-- One poll cycle's environment: what `log_queue.get(timeout=1.0)`
returned (`none` = `Empty`), the `time.time()` read after it, and the
transport outcome a send would see this cycle. -/
structure PollInput where
  dequeued : Option LogEntry
  now : Int
  http : Except String HttpResponse

/-- The batch after the dequeue-and-append phase of a cycle. -/
def polledBatch (st : WorkerState) (inp : PollInput) : List LogEntry :=
  match inp.dequeued with
  | some e => st.batch ++ [e]
  | none => st.batch

/-- What one cycle produces: the new state, the batch handed to
`_send_batch` (if any), and the stderr side-channel output. -/
structure StepOut where
  state : WorkerState
  sent : Option (List LogEntry)

/-- One iteration of the `while True` loop in `_batch_worker`: dequeue
(or time out), then flush when
`len(batch) >= batch_size or (batch and now - last_flush >= flush_interval)`;
the send itself is additionally guarded by `if batch:`.  `_send_batch`
returns nothing and is wrapped in its own catch-all, so the state the loop
carries forward never depends on the transport outcome `inp.http`. -/
def workerStep (cfg : WorkerCfg) (st : WorkerState) (inp : PollInput) :
    StepOut :=
  if ((polledBatch st inp).length : Int) ≥ cfg.batchSize ∨
      (polledBatch st inp ≠ [] ∧ inp.now - st.lastFlush ≥ cfg.flushInterval) then
    if polledBatch st inp ≠ [] then
      ⟨⟨[], inp.now⟩, some (polledBatch st inp)⟩
    else
      ⟨⟨polledBatch st inp, st.lastFlush⟩, none⟩
  else
    ⟨⟨polledBatch st inp, st.lastFlush⟩, none⟩

/-- The stderr lines a cycle produces: the send's diagnostics when a send
happened, nothing otherwise. -/
def workerStepStderr (cfg : WorkerCfg) (st : WorkerState) (inp : PollInput) :
    List String :=
  match (workerStep cfg st inp).sent with
  | some _ => sendStderr inp.http
  | none => []

/-- The worker loop over a finite trace of poll cycles, collecting the
batches handed to `_send_batch` in order. -/
def workerRun (cfg : WorkerCfg) :
    WorkerState → List PollInput → WorkerState × List (List LogEntry)
  | st, [] => (st, [])
  | st, inp :: rest =>
    let o := workerStep cfg st inp
    let r := workerRun cfg o.state rest
    (r.1, o.sent.toList ++ r.2)

/-! ### Lemmas about the dict model -/

theorem alookup_append_some {α : Type} {k : String} {v : α}
    {s : List (String × α)} (t : List (String × α))
    (h : alookup k s = some v) : alookup k (s ++ t) = some v := by
  induction s with
  | nil => simp [alookup] at h
  | cons p rest ih =>
    obtain ⟨k', v'⟩ := p
    by_cases hk : k' = k
    · simp [alookup, hk] at h ⊢; exact h
    · simp [alookup, hk] at h ⊢; exact ih h

theorem alookup_append_none {α : Type} {k : String}
    {s : List (String × α)} (t : List (String × α))
    (h : alookup k s = none) : alookup k (s ++ t) = alookup k t := by
  induction s with
  | nil => simp
  | cons p rest ih =>
    obtain ⟨k', v'⟩ := p
    by_cases hk : k' = k
    · simp [alookup, hk] at h
    · simp [alookup, hk] at h ⊢; exact ih h

theorem alookup_eq_none_iff {α : Type} (k : String) (s : List (String × α)) :
    alookup k s = none ↔ k ∉ s.map Prod.fst := by
  induction s with
  | nil => simp [alookup]
  | cons p rest ih =>
    obtain ⟨k', v'⟩ := p
    by_cases hk : k' = k
    · subst hk; simp [alookup]
    · simp [alookup, hk, ih, Ne.symm hk]

theorem alookup_appendValue (key : String) (v : String × String)
    (s : List (String × StreamData)) (k : String) :
    alookup k (appendValue key v s) =
      if k = key then
        (alookup k s).map (fun st => ⟨st.labels, st.values ++ [v]⟩)
      else alookup k s := by
  induction s with
  | nil => simp [appendValue, alookup]
  | cons p rest ih =>
    obtain ⟨k', st⟩ := p
    by_cases h1 : k' = key
    · subst h1
      by_cases h2 : k' = k
      · subst h2; simp [appendValue, alookup]
      · simp [appendValue, alookup, h2, Ne.symm h2]
    · by_cases h2 : k' = k
      · subst h2
        simp [appendValue, alookup, h1, Ne.symm h1]
      · simp [appendValue, alookup, h1, h2, ih]

theorem alookup_addEntry (base : List (String × String))
    (s : List (String × StreamData)) (e : LogEntry) (k : String) :
    alookup k (addEntry base s e) =
      if entryKey base e = k then
        match alookup k s with
        | none => some ⟨entryLabels base e, [entryValue e]⟩
        | some st => some ⟨st.labels, st.values ++ [entryValue e]⟩
      else alookup k s := by
  unfold addEntry
  cases h : alookup (entryKey base e) s with
  | some st0 =>
    rw [alookup_appendValue]
    by_cases hk : entryKey base e = k
    · subst hk; simp [h]
    · rw [if_neg (fun hh => hk hh.symm), if_neg hk]
  | none =>
    by_cases hk : entryKey base e = k
    · subst hk
      rw [alookup_append_none _ h, if_pos rfl, h]
      simp [alookup]
    · rw [if_neg hk]
      cases h2 : alookup k s with
      | some v => rw [alookup_append_some _ h2]
      | none =>
        rw [alookup_append_none _ h2]
        simp [alookup, hk]

theorem foldl_addEntry_some (base : List (String × String)) :
    ∀ (batch : List LogEntry) (s : List (String × StreamData))
      (k : String) (st : StreamData), alookup k s = some st →
      alookup k (batch.foldl (addEntry base) s) =
        some ⟨st.labels,
          st.values ++
            (batch.filter (fun e => decide (entryKey base e = k))).map entryValue⟩ := by
  intro batch
  induction batch with
  | nil => intro s k st h; simpa using h
  | cons e rest ih =>
    intro s k st h
    simp only [List.foldl_cons, List.filter_cons]
    by_cases hk : entryKey base e = k
    · have h2 : alookup k (addEntry base s e) =
          some ⟨st.labels, st.values ++ [entryValue e]⟩ := by
        rw [alookup_addEntry, if_pos hk, h]
      rw [ih _ _ _ h2]
      simp [hk, List.append_assoc]
    · have h2 : alookup k (addEntry base s e) = some st := by
        rw [alookup_addEntry, if_neg hk]; exact h
      rw [ih _ _ _ h2]
      simp [hk]

theorem foldl_addEntry_none (base : List (String × String)) :
    ∀ (batch : List LogEntry) (s : List (String × StreamData)) (k : String),
      alookup k s = none →
      alookup k (batch.foldl (addEntry base) s) =
        match batch.filter (fun e => decide (entryKey base e = k)) with
        | [] => none
        | e :: es => some ⟨entryLabels base e, (e :: es).map entryValue⟩ := by
  intro batch
  induction batch with
  | nil => intro s k h; simpa using h
  | cons e rest ih =>
    intro s k h
    simp only [List.foldl_cons, List.filter_cons]
    by_cases hk : entryKey base e = k
    · have h2 : alookup k (addEntry base s e) =
          some ⟨entryLabels base e, [entryValue e]⟩ := by
        rw [alookup_addEntry, if_pos hk, h]
      rw [foldl_addEntry_some base rest _ _ _ h2]
      simp [hk]
    · have h2 : alookup k (addEntry base s e) = none := by
        rw [alookup_addEntry, if_neg hk]; exact h
      rw [ih _ _ h2]
      simp [hk]

/-- The content of the `streams` dict after the whole grouping loop:
under key `k` sits exactly the ordered list of values of the batch
entries whose key is `k`, labelled with the first such entry's labels. -/
theorem groupStreams_alookup (custom : List (String × String))
    (batch : List LogEntry) (k : String) :
    alookup k (groupStreams custom batch) =
      match batch.filter
          (fun e => decide (entryKey (baseLabels custom) e = k)) with
      | [] => none
      | e :: es =>
        some ⟨entryLabels (baseLabels custom) e, (e :: es).map entryValue⟩ :=
  foldl_addEntry_none _ batch [] k rfl

theorem keys_appendValue (key : String) (v : String × String)
    (s : List (String × StreamData)) :
    (appendValue key v s).map Prod.fst = s.map Prod.fst := by
  induction s with
  | nil => rfl
  | cons p rest ih =>
    obtain ⟨k', st⟩ := p
    by_cases h : k' = key <;> simp [appendValue, h, ih]

theorem keys_addEntry (base : List (String × String))
    (s : List (String × StreamData)) (e : LogEntry) :
    (addEntry base s e).map Prod.fst =
      if entryKey base e ∈ s.map Prod.fst then s.map Prod.fst
      else s.map Prod.fst ++ [entryKey base e] := by
  unfold addEntry
  cases h : alookup (entryKey base e) s with
  | some st =>
    have hm : entryKey base e ∈ s.map Prod.fst := by
      by_contra hc
      rw [(alookup_eq_none_iff _ _).2 hc] at h
      exact Option.noConfusion h
    simp [keys_appendValue, hm]
  | none =>
    have hm : entryKey base e ∉ s.map Prod.fst := (alookup_eq_none_iff _ _).1 h
    simp [hm]

/-- Order of first encounter of the elements of a list. -/
def firstOccurrences (l : List String) : List String :=
  l.foldl (fun acc k => if k ∈ acc then acc else acc ++ [k]) []

theorem keys_foldl_addEntry (base : List (String × String)) :
    ∀ (batch : List LogEntry) (s : List (String × StreamData)),
      (batch.foldl (addEntry base) s).map Prod.fst =
        (batch.map (entryKey base)).foldl
          (fun acc k => if k ∈ acc then acc else acc ++ [k]) (s.map Prod.fst) := by
  intro batch
  induction batch with
  | nil => intro s; rfl
  | cons e rest ih =>
    intro s
    simp only [List.foldl_cons, List.map_cons]
    rw [ih, keys_addEntry]

/-- The stream keys appear in the order each distinct key was first
encountered in the batch. -/
theorem groupStreams_keys (custom : List (String × String))
    (batch : List LogEntry) :
    (groupStreams custom batch).map Prod.fst =
      firstOccurrences (batch.map (entryKey (baseLabels custom))) :=
  keys_foldl_addEntry _ batch []

theorem nodup_dedup_foldl :
    ∀ (l : List String) (acc : List String), acc.Nodup →
      (l.foldl (fun acc k => if k ∈ acc then acc else acc ++ [k]) acc).Nodup := by
  intro l
  induction l with
  | nil => intro acc h; simpa using h
  | cons k ks ih =>
    intro acc h
    simp only [List.foldl_cons]
    by_cases hk : k ∈ acc
    · rw [if_pos hk]; exact ih acc h
    · rw [if_neg hk]
      refine ih _ ?_
      simp [List.nodup_append, h, hk]

/-- The `streams` dict never holds two streams under the same key. -/
theorem groupStreams_keys_nodup (custom : List (String × String))
    (batch : List LogEntry) :
    ((groupStreams custom batch).map Prod.fst).Nodup := by
  rw [groupStreams_keys]
  exact nodup_dedup_foldl _ [] (by simp)

theorem alookup_dinsert_self (k v : String) (d : List (String × String)) :
    alookup k (dinsert k v d) = some v := by
  induction d with
  | nil => simp [dinsert, alookup]
  | cons p rest ih =>
    obtain ⟨k', v'⟩ := p
    by_cases h : k' = k
    · simp [dinsert, alookup, h]
    · simp [dinsert, alookup, h, ih]

theorem alookup_dinsert_ne (k v q : String) (d : List (String × String))
    (h : k ≠ q) : alookup q (dinsert k v d) = alookup q d := by
  induction d with
  | nil => simp [dinsert, alookup, h]
  | cons p rest ih =>
    obtain ⟨k', v'⟩ := p
    by_cases h1 : k' = k
    · subst h1; simp [dinsert, alookup, h]
    · simp [dinsert, alookup, h1, ih]

theorem keys_dinsert (k v : String) (d : List (String × String)) :
    (dinsert k v d).map Prod.fst =
      if k ∈ d.map Prod.fst then d.map Prod.fst
      else d.map Prod.fst ++ [k] := by
  induction d with
  | nil => simp [dinsert]
  | cons p rest ih =>
    obtain ⟨k', v'⟩ := p
    by_cases h : k' = k
    · subst h; simp [dinsert]
    · simp only [dinsert, if_neg h, List.map_cons, ih]
      by_cases hm : k ∈ List.map Prod.fst rest
      · simp [hm, Ne.symm h]
      · simp [hm, Ne.symm h]

theorem nodupKeys_dinsert (k v : String) (d : List (String × String))
    (h : (d.map Prod.fst).Nodup) : ((dinsert k v d).map Prod.fst).Nodup := by
  rw [keys_dinsert]
  by_cases hm : k ∈ d.map Prod.fst
  · simpa [hm] using h
  · simp [hm, List.nodup_append, h]

theorem nodupKeys_foldl_dinsert :
    ∀ (l : List (String × String)) (d : List (String × String)),
      (d.map Prod.fst).Nodup →
      ((l.foldl (fun d kv => dinsert kv.1 kv.2 d) d).map Prod.fst).Nodup := by
  intro l
  induction l with
  | nil => intro d h; simpa using h
  | cons kv rest ih =>
    intro d h
    simp only [List.foldl_cons]
    exact ih _ (nodupKeys_dinsert _ _ _ h)

/-- `base_labels` never holds duplicate keys. -/
theorem nodupKeys_baseLabels (custom : List (String × String)) :
    ((baseLabels custom).map Prod.fst).Nodup :=
  nodupKeys_foldl_dinsert custom _ (by simp)

/-- An entry's label dict never holds duplicate keys. -/
theorem nodupKeys_entryLabels (base : List (String × String)) (e : LogEntry)
    (h : (base.map Prod.fst).Nodup) :
    ((entryLabels base e).map Prod.fst).Nodup :=
  nodupKeys_dinsert _ _ _ (nodupKeys_dinsert _ _ _ (nodupKeys_dinsert _ _ _ h))

theorem mem_iff_alookup {α : Type} {d : List (String × α)}
    (h : (d.map Prod.fst).Nodup) (k : String) (v : α) :
    (k, v) ∈ d ↔ alookup k d = some v := by
  induction d with
  | nil => simp [alookup]
  | cons p rest ih =>
    obtain ⟨k', v'⟩ := p
    simp only [List.map_cons, List.nodup_cons] at h
    by_cases hk : k' = k
    · subst hk
      constructor
      · intro hm
        rcases List.mem_cons.1 hm with hm | hm
        · rw [Prod.mk.injEq] at hm
          rw [hm.2]
          simp [alookup]
        · exact absurd (List.mem_map.2 ⟨(k', v), hm, rfl⟩) h.1
      · intro hl
        have hv : v' = v := by simpa [alookup] using hl
        subst hv
        exact List.mem_cons_self _ _
    · simp only [alookup, if_neg hk, List.mem_cons]
      constructor
      · rintro (hm | hm)
        · rw [Prod.mk.injEq] at hm
          exact absurd hm.1.symm hk
        · exact (ih h.2).1 hm
      · intro hl
        exact Or.inr ((ih h.2).2 hl)

/-- Two dicts with duplicate-free keys and the same lookup function hold
the same pairs. -/
theorem perm_of_alookup_eq {d1 d2 : List (String × String)}
    (h1 : (d1.map Prod.fst).Nodup) (h2 : (d2.map Prod.fst).Nodup)
    (h : ∀ k, alookup k d1 = alookup k d2) : d1.Perm d2 := by
  have n1 : d1.Nodup := List.Nodup.of_map _ h1
  have n2 : d2.Nodup := List.Nodup.of_map _ h2
  refine (List.perm_ext_iff_of_nodup n1 n2).2 ?_
  rintro ⟨k, v⟩
  rw [mem_iff_alookup h1, mem_iff_alookup h2, h k]

/-- Sorting is permutation-invariant for the canonical item order. -/
theorem sortedItems_perm_eq {d1 d2 : List (String × String)}
    (h : d1.Perm d2) : sortedItems d1 = sortedItems d2 :=
  List.eq_of_perm_of_sorted
    ((List.perm_insertionSort pairLe d1).trans
      (h.trans (List.perm_insertionSort pairLe d2).symm))
    (List.sorted_insertionSort pairLe d1)
    (List.sorted_insertionSort pairLe d2)

theorem labelsKey_perm {d1 d2 : List (String × String)} (h : d1.Perm d2) :
    labelsKey d1 = labelsKey d2 := by
  unfold labelsKey
  rw [sortedItems_perm_eq h]

/-- The canonical grouping key depends only on the dict's contents as a
map, not on insertion order. -/
theorem labelsKey_of_alookup_eq {d1 d2 : List (String × String)}
    (h1 : (d1.map Prod.fst).Nodup) (h2 : (d2.map Prod.fst).Nodup)
    (h : ∀ k, alookup k d1 = alookup k d2) : labelsKey d1 = labelsKey d2 :=
  labelsKey_perm (perm_of_alookup_eq h1 h2 h)

/-! ### Worker-loop lemmas -/

theorem workerStep_entries (cfg : WorkerCfg) (st : WorkerState)
    (inp : PollInput) :
    ((workerStep cfg st inp).sent.getD []) ++ (workerStep cfg st inp).state.batch =
      st.batch ++ inp.dequeued.toList := by
  unfold workerStep
  split_ifs with h1 h2 <;> cases hd : inp.dequeued <;> simp [polledBatch, hd]

theorem workerRun_entries (cfg : WorkerCfg) :
    ∀ (inputs : List PollInput) (st : WorkerState),
      (workerRun cfg st inputs).2.flatten ++ (workerRun cfg st inputs).1.batch =
        st.batch ++ inputs.filterMap PollInput.dequeued := by
  intro inputs
  induction inputs with
  | nil => intro st; simp [workerRun]
  | cons inp rest ih =>
    intro st
    simp only [workerRun]
    rw [List.flatten_append, List.append_assoc, ih (workerStep cfg st inp).state,
      ← List.append_assoc]
    have hj : (workerStep cfg st inp).sent.toList.flatten =
        (workerStep cfg st inp).sent.getD [] := by
      cases (workerStep cfg st inp).sent <;> simp
    rw [hj, workerStep_entries, List.append_assoc]
    cases hd : inp.dequeued <;> simp [List.filterMap_cons, hd]

theorem mem_keys_of_alookup_some {α : Type} {k : String}
    {s : List (String × α)} {v : α} (h : alookup k s = some v) :
    k ∈ s.map Prod.fst := by
  by_contra hc
  rw [(alookup_eq_none_iff k s).2 hc] at h
  exact Option.noConfusion h

theorem alookup_function_entryLabels (base : List (String × String))
    (e : LogEntry) :
    alookup "function" (entryLabels base e) = some e.function := by
  unfold entryLabels
  rw [alookup_dinsert_ne _ _ _ _ (by decide)]
  exact alookup_dinsert_self _ _ _

theorem alookup_file_entryLabels (base : List (String × String))
    (e : LogEntry) :
    alookup "file" (entryLabels base e) = some e.file := by
  unfold entryLabels
  exact alookup_dinsert_self _ _ _

/-- The flush condition exactly as the specification claim words it. -/
def claimedFlushCond (cfg : WorkerCfg) (st : WorkerState) (inp : PollInput) :
    Prop :=
  ((polledBatch st inp).length : Int) ≥ cfg.batchSize ∨
    ((polledBatch st inp).length > 0 ∧ inp.now - st.lastFlush ≥ cfg.flushInterval)

/-- A dict built by inserting key/value pairs one by one in a given order. -/
def dictOf (ps : List (String × String)) : List (String × String) :=
  ps.foldl (fun d kv => dinsert kv.1 kv.2 d) []

/-! ### Concrete fixtures used by witnesses and counterexamples -/

def eW : LogEntry := ⟨"1", "m", "INFO", "app", "f", 1, "a.py"⟩

def eW2 : LogEntry := ⟨"2", "n", "INFO", "app", "f", 1, "a.py"⟩

def cfgW : WorkerCfg := ⟨2, 5⟩

def cfg0 : WorkerCfg := ⟨0, 5⟩

def stW : WorkerState := ⟨[], 0⟩

def inpW : PollInput := ⟨some eW, 10, .ok ⟨204, ""⟩⟩

def inpT : PollInput := ⟨none, 10, .ok ⟨204, ""⟩⟩

/-! ### Claim theorems -/

/-- C1 (amended: assuming `batchSize ≥ 1`): after each wake, a send is
performed iff `len(batch) >= batchSize` or (`len(batch) > 0` and
`now - lastFlush >= flushInterval`); when performed, the polled batch is
what is sent, the batch is cleared and `last_flush` is reset to `now`;
an empty batch never sends. -/
theorem batchWorker_flush_iff (cfg : WorkerCfg) (st : WorkerState)
    (inp : PollInput) (hbs : (1 : Int) ≤ cfg.batchSize) :
    ((workerStep cfg st inp).sent ≠ none ↔ claimedFlushCond cfg st inp) ∧
    (∀ b, (workerStep cfg st inp).sent = some b →
      b = polledBatch st inp ∧ (workerStep cfg st inp).state.batch = [] ∧
      (workerStep cfg st inp).state.lastFlush = inp.now) ∧
    (polledBatch st inp = [] → (workerStep cfg st inp).sent = none) := by
  by_cases hcond : ((polledBatch st inp).length : Int) ≥ cfg.batchSize ∨
      (polledBatch st inp ≠ [] ∧ inp.now - st.lastFlush ≥ cfg.flushInterval)
  · by_cases hne : polledBatch st inp = []
    · exfalso
      rcases hcond with h | h
      · rw [hne] at h
        simp only [List.length_nil, Nat.cast_zero] at h
        omega
      · exact h.1 hne
    · have hstep : workerStep cfg st inp =
          ⟨⟨[], inp.now⟩, some (polledBatch st inp)⟩ := by
        unfold workerStep
        rw [if_pos hcond, if_pos hne]
      rw [hstep]
      refine ⟨⟨fun _ => ?_, fun _ => by simp⟩, ?_, ?_⟩
      · unfold claimedFlushCond
        rcases hcond with h | h
        · exact Or.inl h
        · exact Or.inr ⟨List.length_pos.2 h.1, h.2⟩
      · intro b hb
        simp only [Option.some.injEq] at hb
        exact ⟨hb.symm, rfl, rfl⟩
      · intro h
        exact absurd h hne
  · have hnc : ¬ claimedFlushCond cfg st inp := by
      intro hc
      rcases hc with h | h
      · exact hcond (Or.inl h)
      · exact hcond (Or.inr ⟨fun hnil => by rw [hnil] at h; simp at h, h.2⟩)
    have hstep : workerStep cfg st inp =
        ⟨⟨polledBatch st inp, st.lastFlush⟩, none⟩ := by
      unfold workerStep
      rw [if_neg hcond]
    rw [hstep]
    exact ⟨⟨fun h => absurd rfl h, fun h => absurd h hnc⟩,
      fun b hb => Option.noConfusion hb, fun _ => rfl⟩

/-- C1, counterexample to the claim as stated: with `batch_size = 0` and an
empty batch, the claimed flush condition holds (`0 >= 0`) yet the worker
performs no send, because the send is separately guarded by `if batch:`. -/
theorem batchWorker_flush_iff_counterexample :
    claimedFlushCond cfg0 stW inpT ∧ (workerStep cfg0 stW inpT).sent = none := by
  constructor
  · unfold claimedFlushCond
    decide
  · decide

/-- C1, witness for the amended theorem at a concrete configuration. -/
theorem batchWorker_flush_iff_witness :
    ((1 : Int) ≤ cfgW.batchSize) ∧
    (((workerStep cfgW stW inpW).sent ≠ none ↔ claimedFlushCond cfgW stW inpW) ∧
     (∀ b, (workerStep cfgW stW inpW).sent = some b →
       b = polledBatch stW inpW ∧ (workerStep cfgW stW inpW).state.batch = [] ∧
       (workerStep cfgW stW inpW).state.lastFlush = inpW.now) ∧
     (polledBatch stW inpW = [] → (workerStep cfgW stW inpW).sent = none)) :=
  ⟨by decide, batchWorker_flush_iff cfgW stW inpW (by decide)⟩

/-- C2: the worker's next state and what it sends never depend on the
transport outcome (a failed send clears the batch exactly like a
successful one), and over any run every dequeued entry occurs exactly
once in the concatenation of all sent batches plus the final pending
batch — nothing is retried or requeued. -/
theorem sendFailure_batch_dropped (cfg : WorkerCfg) (st : WorkerState)
    (inputs : List PollInput) :
    (∀ (d : Option LogEntry) (n : Int) (r r' : Except String HttpResponse),
        workerStep cfg st ⟨d, n, r⟩ = workerStep cfg st ⟨d, n, r'⟩) ∧
    (workerRun cfg st inputs).2.flatten ++ (workerRun cfg st inputs).1.batch =
      st.batch ++ inputs.filterMap PollInput.dequeued :=
  ⟨fun _ _ _ _ => rfl, workerRun_entries cfg inputs st⟩

/-- C3: two batch entries whose computed label dicts are equal as maps get
the same grouping key; that key owns exactly one stream of the payload,
and that stream's values are precisely the `(timestamp, message)` pairs of
the key's entries in batch order. -/
theorem equalLabels_single_stream (custom : List (String × String))
    (batch : List LogEntry) (e1 e2 : LogEntry)
    (h1 : e1 ∈ batch) (_h2 : e2 ∈ batch)
    (heq : ∀ k, alookup k (entryLabels (baseLabels custom) e1) =
      alookup k (entryLabels (baseLabels custom) e2)) :
    entryKey (baseLabels custom) e1 = entryKey (baseLabels custom) e2 ∧
    ((groupStreams custom batch).map Prod.fst).count
      (entryKey (baseLabels custom) e1) = 1 ∧
    ∃ st, alookup (entryKey (baseLabels custom) e1)
        (groupStreams custom batch) = some st ∧
      st.values = (batch.filter (fun e =>
        decide (entryKey (baseLabels custom) e =
          entryKey (baseLabels custom) e1))).map entryValue := by
  have hkey : entryKey (baseLabels custom) e1 = entryKey (baseLabels custom) e2 :=
    labelsKey_of_alookup_eq
      (nodupKeys_entryLabels _ _ (nodupKeys_baseLabels custom))
      (nodupKeys_entryLabels _ _ (nodupKeys_baseLabels custom)) heq
  have hmem : e1 ∈ batch.filter (fun e =>
      decide (entryKey (baseLabels custom) e = entryKey (baseLabels custom) e1)) :=
    List.mem_filter.2 ⟨h1, by simp⟩
  cases hf : batch.filter (fun e =>
      decide (entryKey (baseLabels custom) e = entryKey (baseLabels custom) e1)) with
  | nil =>
    rw [hf] at hmem
    simp at hmem
  | cons e es =>
    have hlook : alookup (entryKey (baseLabels custom) e1)
        (groupStreams custom batch) =
        some ⟨entryLabels (baseLabels custom) e, (e :: es).map entryValue⟩ := by
      rw [groupStreams_alookup, hf]
    refine ⟨hkey, ?_, ⟨_, hlook, rfl⟩⟩
    exact List.count_eq_one_of_mem (groupStreams_keys_nodup custom batch)
      (mem_keys_of_alookup_some hlook)

/-- C3, witness: two concrete entries differing only in message/timestamp
share their stream. -/
theorem equalLabels_single_stream_witness :
    (eW ∈ [eW, eW2] ∧ eW2 ∈ [eW, eW2] ∧
     (∀ k, alookup k (entryLabels (baseLabels []) eW) =
       alookup k (entryLabels (baseLabels []) eW2))) ∧
    (entryKey (baseLabels []) eW = entryKey (baseLabels []) eW2 ∧
     ((groupStreams [] [eW, eW2]).map Prod.fst).count
       (entryKey (baseLabels []) eW) = 1 ∧
     ∃ st, alookup (entryKey (baseLabels []) eW)
         (groupStreams [] [eW, eW2]) = some st ∧
       st.values = ([eW, eW2].filter (fun e =>
         decide (entryKey (baseLabels []) e =
           entryKey (baseLabels []) eW))).map entryValue) :=
  ⟨⟨by decide, by decide, fun k => rfl⟩,
   equalLabels_single_stream [] [eW, eW2] eW eW2 (by decide) (by decide)
     (fun k => rfl)⟩

/-- C4: grouping is a pure function of the batch (and configured labels),
and the payload's streams appear in the order each distinct canonical key
was first encountered in the batch. -/
theorem groupBatch_deterministic (custom : List (String × String))
    (b1 b2 : List LogEntry) (h : b1 = b2) :
    buildPayload custom b1 = buildPayload custom b2 ∧
    (groupStreams custom b1).map Prod.fst =
      firstOccurrences (b1.map (entryKey (baseLabels custom))) :=
  ⟨by rw [h], groupStreams_keys custom b1⟩

/-- C4, witness at a concrete batch. -/
theorem groupBatch_deterministic_witness :
    ([eW, eW2] = [eW, eW2]) ∧
    (buildPayload [] [eW, eW2] = buildPayload [] [eW, eW2] ∧
     (groupStreams [] [eW, eW2]).map Prod.fst =
       firstOccurrences ([eW, eW2].map (entryKey (baseLabels [])))) :=
  ⟨rfl, groupBatch_deterministic [] [eW, eW2] [eW, eW2] rfl⟩

/-- C5: dicts built by inserting key/value pairs in different orders but
equal as maps produce the same canonical grouping key. -/
theorem labelKey_insertion_order_independent (ps qs : List (String × String))
    (h : ∀ k, alookup k (dictOf ps) = alookup k (dictOf qs)) :
    labelsKey (dictOf ps) = labelsKey (dictOf qs) :=
  labelsKey_of_alookup_eq (nodupKeys_foldl_dinsert ps [] (by simp))
    (nodupKeys_foldl_dinsert qs [] (by simp)) h

/-- C5, witness: the same two pairs inserted in both orders. -/
theorem labelKey_insertion_order_independent_witness :
    (∀ k, alookup k (dictOf [("a", "1"), ("b", "2")]) =
      alookup k (dictOf [("b", "2"), ("a", "1")])) ∧
    labelsKey (dictOf [("a", "1"), ("b", "2")]) =
      labelsKey (dictOf [("b", "2"), ("a", "1")]) := by
  have h : ∀ k, alookup k (dictOf [("a", "1"), ("b", "2")]) =
      alookup k (dictOf [("b", "2"), ("a", "1")]) := by
    intro k
    show alookup k [("a", "1"), ("b", "2")] = alookup k [("b", "2"), ("a", "1")]
    by_cases h1 : "a" = k
    · subst h1
      decide
    · by_cases h2 : "b" = k
      · subst h2
        decide
      · simp [alookup, h1, h2]
  exact ⟨h, labelKey_insertion_order_independent _ _ h⟩

theorem getRealCaller_sentinel : ∀ (frames : List FrameInfo),
    (∀ f ∈ frames, skippedFrame f = true) →
    getRealCaller frames = ⟨"unknown", 0, "unknown"⟩ := by
  intro frames
  induction frames with
  | nil => intro _; rfl
  | cons f rest ih =>
    intro hall
    have hf : skippedFrame f = true := hall f (List.mem_cons_self _ _)
    simp only [getRealCaller, hf, if_true]
    exact ih (fun g hg => hall g (List.mem_cons_of_mem _ hg))

/-- C6: a send succeeds exactly when the HTTP status is 200 or 204; every
other status and every transport exception is a failure, reported solely
as stderr lines, and the worker's continuation is untouched by the
outcome (nothing is raised or returned to a caller). -/
theorem send_outcome_classification (r : Except String HttpResponse) :
    (sendSuccess r = true ↔
      ∃ resp, r = Except.ok resp ∧ (resp.status = 200 ∨ resp.status = 204)) ∧
    (sendStderr r = [] ↔ sendSuccess r = true) ∧
    (∀ (cfg : WorkerCfg) (st : WorkerState) (d : Option LogEntry) (n : Int)
        (r' : Except String HttpResponse),
        workerStep cfg st ⟨d, n, r⟩ = workerStep cfg st ⟨d, n, r'⟩) := by
  refine ⟨?_, ?_, fun cfg st d n r' => rfl⟩
  · cases r with
    | ok resp => simp [sendSuccess]
    | error e => simp [sendSuccess]
  · cases r with
    | ok resp =>
      by_cases h : resp.status = 200 ∨ resp.status = 204
      · simp [sendSuccess, sendStderr, h]
      · simp [sendSuccess, sendStderr, h]
    | error e => simp [sendSuccess, sendStderr]

/-- C7: an `emit` call never surfaces an error to the application call
site: its outer result is always `.ok`, either an enqueued entry or the
swallowed-and-handled error case. -/
theorem emit_never_propagates (a : EmitAttempt) :
    (∃ out, emit a = Except.ok out) ∧
    (emit a = Except.ok EmitOutcome.errorHandled ∨
      ∃ e, emit a = Except.ok (EmitOutcome.enqueued e)) := by
  refine ⟨⟨_, rfl⟩, ?_⟩
  cases h : emitBody a with
  | ok e =>
    refine Or.inr ⟨e, ?_⟩
    unfold emit
    rw [h]
  | error msg =>
    refine Or.inl ?_
    unfold emit
    rw [h]

/-- C8: with every frame of the stack skipped, the resolver returns the
sentinel `function="unknown", line=0, file="unknown"`, and an entry built
from the sentinel still yields a well-formed stream whose labels carry
`function="unknown"` and `file="unknown"`. -/
theorem sentinel_caller_valid_stream (frames : List FrameInfo)
    (hall : ∀ f ∈ frames, skippedFrame f = true)
    (custom : List (String × String)) (ts msg lvl lg : String) :
    getRealCaller frames = ⟨"unknown", 0, "unknown"⟩ ∧
    alookup "function" (entryLabels (baseLabels custom)
      ⟨ts, msg, lvl, lg, "unknown", 0, "unknown"⟩) = some "unknown" ∧
    alookup "file" (entryLabels (baseLabels custom)
      ⟨ts, msg, lvl, lg, "unknown", 0, "unknown"⟩) = some "unknown" ∧
    alookup (entryKey (baseLabels custom)
        ⟨ts, msg, lvl, lg, "unknown", 0, "unknown"⟩)
      (groupStreams custom [⟨ts, msg, lvl, lg, "unknown", 0, "unknown"⟩]) =
      some ⟨entryLabels (baseLabels custom)
          ⟨ts, msg, lvl, lg, "unknown", 0, "unknown"⟩,
        [entryValue ⟨ts, msg, lvl, lg, "unknown", 0, "unknown"⟩]⟩ := by
  refine ⟨getRealCaller_sentinel frames hall,
    alookup_function_entryLabels _ _, alookup_file_entryLabels _ _, ?_⟩
  rw [groupStreams_alookup]
  simp

def frW : FrameInfo := ⟨"/usr/lib/python3.10/logging/__init__.py", "_log", 99⟩

/-- C8, witness: a stack consisting only of a logging-internal frame. -/
theorem sentinel_caller_valid_stream_witness :
    (∀ f ∈ [frW], skippedFrame f = true) ∧
    (getRealCaller [frW] = ⟨"unknown", 0, "unknown"⟩ ∧
     alookup "function" (entryLabels (baseLabels [])
       ⟨"1", "m", "INFO", "app", "unknown", 0, "unknown"⟩) = some "unknown" ∧
     alookup "file" (entryLabels (baseLabels [])
       ⟨"1", "m", "INFO", "app", "unknown", 0, "unknown"⟩) = some "unknown" ∧
     alookup (entryKey (baseLabels [])
         ⟨"1", "m", "INFO", "app", "unknown", 0, "unknown"⟩)
       (groupStreams [] [⟨"1", "m", "INFO", "app", "unknown", 0, "unknown"⟩]) =
       some ⟨entryLabels (baseLabels [])
           ⟨"1", "m", "INFO", "app", "unknown", 0, "unknown"⟩,
         [entryValue ⟨"1", "m", "INFO", "app", "unknown", 0, "unknown"⟩]⟩) :=
  ⟨by decide,
   sentinel_caller_valid_stream [frW] (by decide) [] "1" "m" "INFO" "app"⟩

def eColA : LogEntry := ⟨"1", "A", "INFO", "app", "g", 1, "a|function=f"⟩

def eColB : LogEntry := ⟨"2", "B", "INFO", "app", "f|function=g", 2, "a"⟩

/-- C10: the canonical grouping key is not injective: `eColA` and `eColB`
have different label maps (their `file` values differ) yet the same
sorted-joined key, so the batch `[eColA, eColB]` produces a single stream
that carries the labels of the first entry. -/
theorem labelKey_not_injective :
    alookup "file" (entryLabels (baseLabels []) eColA) = some "a|function=f" ∧
    alookup "file" (entryLabels (baseLabels []) eColB) = some "a" ∧
    entryKey (baseLabels []) eColA = entryKey (baseLabels []) eColB ∧
    groupStreams [] [eColA, eColB] =
      [(entryKey (baseLabels []) eColA,
        ⟨entryLabels (baseLabels []) eColA,
         [entryValue eColA, entryValue eColB]⟩)] := by
  refine ⟨by decide, by decide, by decide, by decide⟩
